import Mathlib

/-!
Verification of the incremental tokenizer engine in `src/lexer/scan.rs`
(a port of Go's `bufio.Scanner`).

The engine is generic over three capabilities, which we embed shallowly:

* `Input` (the Rust trait `Input`): a record of the operations
  `fill_buf`, `eof`, `consume`, `buffer`, `is_empty`, `len` over an
  input-state type `σ`.  The two complete in-memory implementations
  (`&[u8]` and `Vec<u8>`) become `memInput` and `vecInput` over
  `List Nat`; the streaming implementation (`InputStream`) becomes
  `streamInput` over an explicit `InputStream` state.
* `Splitter` (the Rust trait `Splitter`): per the contract stated in the
  repository ("Must be a pure function of its arguments") a splitter is a
  pure function of the visible data and the eof flag, returning either an
  error or `(Option token, bytes to consume)`.
* `ScanError` (the Rust trait `ScanError`): a record `ErrorOps` with the
  conversion `fromIo` (the trait bound `From<io::Error>`) and the
  position-attaching operation `position`.

Bytes are modelled as `Nat` (the newline byte `b'\n'` is `10`); the token
type `Token<TokenType>` lives outside `src` (in `super::sql`) and only
flows through the engine unchanged, so it is an opaque type parameter.
Rust's `scan` loop is embedded as a step function `scanStep` (one loop
iteration) driven by a fuel-indexed iterator `Scanner.scan`; `none` means
the fuel ran out before the loop returned.
-/

/-- A byte (`u8`); the engine compares bytes only against `b'\n' = 10`. -/
abbrev Byte := Nat

/-- I/O failures visible to the engine: the out-of-space failure produced
by `InputStream::fill_buf` at the capacity ceiling (`ErrorKind::UnexpectedEof`
in the code), and a failure raised by the client reader inside `read_from`. -/
inductive IoErr : Type
  | unexpectedEof : IoErr
  | readError : IoErr
deriving DecidableEq, Repr

/-- The Rust trait `Input` as a record of operations over an input state `σ`. -/
structure InputImpl (σ : Type) where
  fill_buf : σ → Except IoErr σ
  eof : σ → Bool
  consume : σ → Nat → σ
  buffer : σ → List Byte
  is_empty : σ → Bool
  len : σ → Nat

/-- `impl Input for &[u8]` (memory input): `fill_buf` is a no-op `Ok(())`,
`eof` is always true, `consume` drops a front segment of the slice. -/
def memInput : InputImpl (List Byte) where
  fill_buf s := .ok s
  eof _ := true
  consume s amt := s.drop amt
  buffer s := s
  is_empty s := s.isEmpty
  len s := s.length

/-- `impl Input for Vec<u8>`: `fill_buf` is a no-op `Ok(())`, `eof` is always
true, `consume(amt)` is `drain(..amt)`, removing the first `amt` bytes. -/
def vecInput : InputImpl (List Byte) where
  fill_buf s := .ok s
  eof _ := true
  consume s amt := s.drop amt
  buffer s := s
  is_empty s := s.isEmpty
  len s := s.length

/-- `MAX_CAPACITY`: the hard ceiling on the streaming buffer (1 GiB). -/
def MAX_CAPACITY : Nat := 1024 * 1024 * 1024

/-- The streaming input state (`InputStream<R>`).

Modelled from the spec: the crate `buf_redux` (external to this repository)
provides the growable ring buffer `Buffer`; following the spec's description
of the buffer-growth policy, the buffer is modelled as the list `buf` of
currently buffered unconsumed bytes plus its `capacity`, with
`free_space = capacity - buf.length` (the compaction performed by
`make_room` has no observable effect at this level).  The client reader `R`
is modelled as `chunks`, the list of outcomes that successive `read` calls
produce: either a run of bytes the reader delivers, or an I/O error the
reader raises (which `read_from(&mut self.inner)?` propagates).  A single
successful `read` delivers at most `free_space` bytes from the front
chunk, and delivers `0` bytes exactly when `chunks` is empty. -/
structure InputStream : Type where
  buf : List Byte
  capacity : Nat
  chunks : List (Except IoErr (List Byte))
  eof : Bool
deriving Repr

namespace InputStream

/-- `InputStream::new`: wrap a reader with the initial capacity 4096. -/
def new (chunks : List (Except IoErr (List Byte))) : InputStream :=
  { buf := [], capacity := 4096, chunks := chunks, eof := false }

/-- `Buffer::free_space`: capacity not currently holding buffered bytes. -/
def free_space (s : InputStream) : Nat := s.capacity - s.buf.length

/-- One `read` from the modelled reader: either the reader's error, or the
bytes delivered together with the remaining reader state.  A successful
read delivers at most `free_space` bytes. -/
def readChunk (s : InputStream) :
    Except IoErr (List Byte × List (Except IoErr (List Byte))) :=
  match s.chunks with
  | [] => .ok ([], [])
  | .error e :: _ => .error e
  | .ok c :: rest =>
    let n := min c.length s.free_space
    .ok (c.take n, if n < c.length then .ok (c.drop n) :: rest else rest)

/-- `let sz = self.buf.read_from(&mut self.inner)?; self.eof = sz == 0`:
perform exactly one read, propagating the reader's error (in which case
the state is unchanged, as `?` returns before `self.eof` is assigned),
and otherwise record whether the read delivered zero bytes. -/
def readStep (s : InputStream) : Except IoErr InputStream :=
  match s.readChunk with
  | .error e => .error e
  | .ok (bytes, rest) =>
    .ok { s with buf := s.buf ++ bytes,
                 chunks := rest,
                 eof := decide (bytes.length = 0) }

/-- `InputStream::fill_buf`: if the buffer is full, double the capacity
unless `capacity * 2 < MAX_CAPACITY` fails, in which case return the
out-of-space error; then perform one read. -/
def fill_buf (s : InputStream) : Except IoErr InputStream :=
  if s.free_space = 0 then
    if s.capacity * 2 < MAX_CAPACITY then
      readStep { s with capacity := s.capacity * 2 }
    else
      .error .unexpectedEof
  else
    readStep s

end InputStream

/-- The bytes a single reader outcome contributes. -/
def chunkLen : Except IoErr (List Byte) → Nat
  | .ok c => c.length
  | .error _ => 0

/-- An error-free reader delivering only nonempty byte runs. -/
def AllOkChunks (cs : List (Except IoErr (List Byte))) : Prop :=
  ∀ ch ∈ cs, ∃ c, ch = .ok c ∧ c ≠ []

/-- The bytes an error-free reader still has to deliver, in order. -/
def okJoin : List (Except IoErr (List Byte)) → List Byte
  | [] => []
  | .ok c :: rest => c ++ okJoin rest
  | .error _ :: rest => okJoin rest

/-- `impl Input for InputStream`. -/
def streamInput : InputImpl InputStream where
  fill_buf := InputStream.fill_buf
  eof s := s.eof
  consume s amt := { s with buf := s.buf.drop amt }
  buffer s := s.buf
  is_empty s := s.buf.isEmpty
  len s := s.buf.length

/-- The Rust trait `ScanError` as a record: construction from an I/O failure
(`From<io::Error>`) and the `position` operation attaching `(line, column)`. -/
structure ErrorOps (E : Type) where
  fromIo : IoErr → E
  position : E → Nat → Nat → E

/-- `Splitter::split`, per the repository's contract a pure function
`(data, eof) ↦ Result<(Option<Token>, usize)>`. -/
def SplitFn (E T : Type) := List Byte → Bool → Except E (Option T × Nat)

/-- The `Scanner` struct: an input state, the splitter, and the 1-based
line and column of the next unconsumed byte. -/
structure Scanner (σ S : Type) where
  input : σ
  splitter : S
  line : Nat
  column : Nat

namespace Scanner

/-- `Scanner::new`. -/
def new (input : σ) (splitter : S) : Scanner σ S :=
  { input := input, splitter := splitter, line := 1, column := 1 }

/-- `Scanner::reset`: rebind to a fresh input and reset the position,
leaving the splitter in place. -/
def reset (sc : Scanner σ S) (input : σ) : Scanner σ S :=
  { sc with input := input, line := 1, column := 1 }

/-- The position-update loop of `Scanner::consume`: for each consumed byte,
a newline increments `line` and resets `column` to 1, any other byte
increments `column`. -/
def advance (pos : Nat × Nat) (bytes : List Byte) : Nat × Nat :=
  bytes.foldl (fun p b => if b = 10 then (p.1 + 1, 1) else (p.1, p.2 + 1)) pos

/-- `Scanner::consume`: update `line`/`column` over the first `amt`
buffered bytes, then consume them from the input. -/
def consume (inp : InputImpl σ) (sc : Scanner σ S) (amt : Nat) : Scanner σ S :=
  let p := advance (sc.line, sc.column) ((inp.buffer sc.input).take amt)
  { sc with line := p.1, column := p.2, input := inp.consume sc.input amt }

end Scanner

/-- The outcome of one iteration of the `scan` loop body: either the loop
returns (`done`) or it goes around again (`next`). -/
inductive StepRes (σ S E T : Type) : Type
  | done (r : Except E (Option T)) (sc : Scanner σ S)
  | next (sc : Scanner σ S)

/-- The tail of the loop body (reached when no token decision was made):
`if eof { return Ok(None) } ... self.input.fill_buf()?`.  An I/O failure is
converted by `?` through `From<io::Error>` — no position is attached. -/
def scanFill (inp : InputImpl σ) (eops : ErrorOps E)
    (sc : Scanner σ (SplitFn E T)) : StepRes σ (SplitFn E T) E T :=
  if inp.eof sc.input then
    .done (.ok none) sc
  else
    match inp.fill_buf sc.input with
    | .error e => .done (.error (eops.fromIo e)) sc
    | .ok s' => .next { sc with input := s' }

/-- One iteration of the body of the `loop` in `Scanner::scan`. -/
def scanStep (inp : InputImpl σ) (eops : ErrorOps E)
    (sc : Scanner σ (SplitFn E T)) : StepRes σ (SplitFn E T) E T :=
  let eof := inp.eof sc.input
  if !inp.is_empty sc.input || eof then
    match sc.splitter (inp.buffer sc.input) eof with
    | .error e => .done (.error (eops.position e sc.line sc.column)) sc
    | .ok (none, 0) => scanFill inp eops sc
    | .ok (none, amt) => .next (Scanner.consume inp sc amt)
    | .ok (tok, amt) => .done (.ok tok) (Scanner.consume inp sc amt)
  else
    scanFill inp eops sc

/-- `Scanner::scan`, fuel-indexed: iterate `scanStep` at most `fuel` times;
`none` means the fuel ran out before the loop returned.  On `some`, the
result pairs the returned value with the scanner state after the call. -/
def Scanner.scan (inp : InputImpl σ) (eops : ErrorOps E) (fuel : Nat)
    (sc : Scanner σ (SplitFn E T)) :
    Option (Except E (Option T) × Scanner σ (SplitFn E T)) :=
  match fuel with
  | 0 => none
  | fuel + 1 =>
    match scanStep inp eops sc with
    | .done r sc' => some (r, sc')
    | .next sc' => Scanner.scan inp eops fuel sc'

/-- Drive `Scanner::scan` to exhaustion: call `scan` up to `calls` times
(each call with `loopFuel` loop iterations), collecting the emitted tokens
in order, until end-of-input (`Ok(None)`) or an error.  `none` means some
fuel ran out first.  The final scanner state carries the final position. -/
def runScanner (inp : InputImpl σ) (eops : ErrorOps E)
    (loopFuel : Nat) (calls : Nat) (sc : Scanner σ (SplitFn E T)) :
    Option (List T × Except E Unit × Scanner σ (SplitFn E T)) :=
  match calls with
  | 0 => none
  | calls + 1 =>
    match Scanner.scan inp eops loopFuel sc with
    | none => none
    | some (.ok none, sc') => some ([], .ok (), sc')
    | some (.error e, sc') => some ([], .error e, sc')
    | some (.ok (some t), sc') =>
      (runScanner inp eops loopFuel calls sc').map
        (fun r => (t :: r.1, r.2.1, r.2.2))

/-- The number of bytes after the last newline byte in a consumed run
(the whole run when it holds no newline). -/
def bytesAfterLastNewline (p : List Byte) : Nat :=
  p.foldl (fun acc b => if b = 10 then 0 else acc + 1) 0

/-- An `Input` implementation whose refill always fails (a streaming source
over a client reader whose `read` returns an error). -/
def failInput : InputImpl Unit where
  fill_buf _ := .error .readError
  eof _ := false
  consume s _ := s
  buffer _ := []
  is_empty _ := true
  len _ := 0

/-- A `ScanError` implementation that records whether the engine applied the
`position` operation to the returned error: conversion from an I/O failure
yields `false`, attaching a position yields `true`. -/
def eopsFlag : ErrorOps Bool where
  fromIo _ := false
  position _ _ _ := true

/-- A trivial `ScanError` implementation for error-free runs. -/
def eopsUnit : ErrorOps Unit where
  fromIo _ := ()
  position e _ _ := e

/-- A splitter that always requests more data (its input is one undelimited
run with no token boundary it recognizes). -/
def moreSplit (E T : Type) : SplitFn E T := fun _ _ => .ok (none, 0)

/-- A splitter whose outcome depends on the `eof` flag: it consumes the whole
visible buffer and tags the token with the flag's value. -/
def eofTagSplit : SplitFn Unit Bool := fun d e =>
  if d.isEmpty then .ok (none, 0)
  else if e then .ok (some true, d.length) else .ok (some false, d.length)

/-- A splitter that deviates from `moreSplit` exactly on the argument pair
the engine's contract rules out: an empty buffer with `at_end` false. -/
def emptyNotEofSplit : SplitFn Unit Nat := fun d e =>
  if d = [] ∧ e = false then .ok (some 0, 0) else .ok (none, 0)

/-- Replace every scanner state inside a step outcome (used to compare runs
that differ only in their splitter field). -/
def StepRes.mapSc (h : Scanner σ S → Scanner σ S) :
    StepRes σ S E T → StepRes σ S E T
  | .done r sc => .done r (h sc)
  | .next sc => .next (h sc)

/-- The splitter field carried by a step outcome's scanner state. -/
def splitterOf : StepRes σ S E T → Option S
  | .done _ sc => some sc.splitter
  | .next sc => some sc.splitter

/-- Total number of bytes a modelled reader still has to deliver. -/
def chunksBytes (cs : List (Except IoErr (List Byte))) : Nat :=
  (cs.map chunkLen).sum

/-- Stability of a splitter under buffer growth, the condition under which
feeding a byte sequence incrementally is equivalent to feeding it whole:
a decision (skip, emit or error — not request-more-data) reached on some
visible data is reached unchanged on every extension of that data and
independently of the `at_end` flag; and a decision never consumes more
bytes than were visible. -/
def SplitStable {E T : Type} (f : SplitFn E T) : Prop :=
  (∀ d e r amt, f d e = .ok (r, amt) → (r ≠ none ∨ amt ≠ 0) →
      ∀ t e', f (d ++ t) e' = .ok (r, amt)) ∧
  (∀ d e err, f d e = .error err → ∀ t e', f (d ++ t) e' = .error err) ∧
  (∀ d e r amt, f d e = .ok (r, amt) → amt ≤ d.length)

/-- Simulation relation between a scanner over the in-memory source and a
scanner over the streaming source: the streaming buffer followed by the
bytes the reader still holds is exactly the remaining in-memory input; the
`eof` flag is only set once the reader is drained; reads are nonempty; the
buffer fits its capacity, which is positive; the remaining input is small
enough that the growth ceiling is never hit; and both scanners carry the
same position and the splitter `f`. -/
def SimInv {E T : Type} (f : SplitFn E T)
    (scM : Scanner (List Byte) (SplitFn E T))
    (scS : Scanner InputStream (SplitFn E T)) : Prop :=
  scS.input.buf ++ okJoin scS.input.chunks = scM.input ∧
  (scS.input.eof = true → scS.input.chunks = []) ∧
  AllOkChunks scS.input.chunks ∧
  scS.input.buf.length ≤ scS.input.capacity ∧
  1 ≤ scS.input.capacity ∧
  2 * scM.input.length < MAX_CAPACITY ∧
  scM.line = scS.line ∧ scM.column = scS.column ∧
  scM.splitter = f ∧ scS.splitter = f

/-- A simple stable splitter: emit each byte as its own token. -/
def headTokenSplit : SplitFn Unit Byte := fun d _ =>
  match d with
  | [] => .ok (none, 0)
  | b :: _ => .ok (some b, 1)

example :
    (Scanner.scan memInput ⟨fun _ => (), fun e _ _ => e⟩ 2
      (Scanner.new [97, 98] (fun d _ => .ok (some 7, d.length)))) =
    some (.ok (some 7), ⟨[], fun d _ => .ok (some 7, d.length), 1, 3⟩) := rfl

example :
    (runScanner streamInput ⟨fun _ => (), fun e _ _ => e⟩ 3 3
      (Scanner.new (InputStream.new [.ok [97]])
        (fun d e => if d.isEmpty then .ok (none, 0)
                    else if e then .ok (some true, d.length)
                    else .ok (some false, d.length)))).map
      (fun r => (r.1, r.2.1, r.2.2.line, r.2.2.column)) =
    some ([false], .ok (), 1, 2) := rfl

/-! ## Position tracking (`Scanner::consume`) -/

theorem advance_nil (pos : Nat × Nat) : Scanner.advance pos [] = pos := rfl

theorem advance_cons (pos : Nat × Nat) (b : Byte) (t : List Byte) :
    Scanner.advance pos (b :: t) =
      Scanner.advance (if b = 10 then (pos.1 + 1, 1) else (pos.1, pos.2 + 1)) t := by
  simp only [Scanner.advance, List.foldl_cons]

theorem advance_line (p : List Byte) : ∀ pos : Nat × Nat,
    (Scanner.advance pos p).1 = pos.1 + p.count 10 := by
  induction p with
  | nil => intro pos; simp [advance_nil]
  | cons b t ih =>
    intro pos
    rw [advance_cons, ih]
    by_cases hb : b = 10
    · simp [hb, List.count_cons]; omega
    · simp [hb, List.count_cons]

theorem advance_column_no_nl (p : List Byte) (hp : p.count 10 = 0) :
    ∀ pos : Nat × Nat, (Scanner.advance pos p).2 = pos.2 + p.length := by
  induction p with
  | nil => intro pos; simp [advance_nil]
  | cons b t ih =>
    intro pos
    have hb : ¬ b = 10 := by
      intro h; simp [h, List.count_cons] at hp
    have ht : t.count 10 = 0 := by
      simp [List.count_cons, hb] at hp; omega
    rw [advance_cons, if_neg hb, ih ht]
    simp; omega

theorem bal_fold_no_nl (t : List Byte) (ht : t.count 10 = 0) : ∀ a : Nat,
    t.foldl (fun acc b => if b = 10 then 0 else acc + 1) a = a + t.length := by
  induction t with
  | nil => intro a; simp
  | cons b t ih =>
    intro a
    have hb : ¬ b = 10 := by
      intro h; simp [h, List.count_cons] at ht
    have ht' : t.count 10 = 0 := by
      simp [List.count_cons, hb] at ht; omega
    simp only [List.foldl_cons, if_neg hb, ih ht']
    simp; omega

theorem count_cons_ne (b : Byte) (t : List Byte) (hb : ¬ b = 10) :
    (b :: t).count 10 = t.count 10 := by
  simp [List.count_cons, hb]

theorem bal_fold_irrel (t : List Byte) (ht : 0 < t.count 10) : ∀ a a' : Nat,
    t.foldl (fun acc b => if b = 10 then 0 else acc + 1) a
      = t.foldl (fun acc b => if b = 10 then 0 else acc + 1) a' := by
  induction t with
  | nil => simp at ht
  | cons b t ih =>
    intro a a'
    by_cases hb : b = 10
    · simp only [List.foldl_cons, if_pos hb]
    · have ht' : 0 < t.count 10 := by
        rw [count_cons_ne b t hb] at ht; exact ht
      simp only [List.foldl_cons, if_neg hb]
      exact ih ht' _ _

theorem bal_cons_nl (t : List Byte) :
    bytesAfterLastNewline (10 :: t) =
      t.foldl (fun acc b => if b = 10 then 0 else acc + 1) 0 := by
  simp [bytesAfterLastNewline]

theorem bal_cons_other (b : Byte) (t : List Byte) (hb : ¬ b = 10) :
    bytesAfterLastNewline (b :: t) =
      t.foldl (fun acc b => if b = 10 then 0 else acc + 1) 1 := by
  simp [bytesAfterLastNewline, hb]

theorem advance_column_pos (p : List Byte) (hp : 0 < p.count 10) :
    ∀ pos : Nat × Nat, (Scanner.advance pos p).2 = bytesAfterLastNewline p + 1 := by
  induction p with
  | nil => simp at hp
  | cons b t ih =>
    intro pos
    by_cases hb : b = 10
    · subst hb
      rw [advance_cons, if_pos rfl, bal_cons_nl]
      by_cases ht : t.count 10 = 0
      · rw [advance_column_no_nl t ht, bal_fold_no_nl t ht 0]
        show 1 + t.length = 0 + t.length + 1
        omega
      · have ht' : 0 < t.count 10 := Nat.pos_of_ne_zero ht
        rw [ih ht']
        simp only [bytesAfterLastNewline]
    · have ht' : 0 < t.count 10 := by
        rw [count_cons_ne b t hb] at hp; exact hp
      rw [advance_cons, if_neg hb, ih ht', bal_cons_other b t hb,
        bal_fold_irrel t ht' 1 0]
      simp only [bytesAfterLastNewline]

/-- Claim C4: after `Scanner::consume` runs over a consumed prefix holding
exactly `k ≥ 1` newline bytes, `line` has increased by `k` and `column`
equals the number of bytes after the last newline of that prefix, plus 1
(each consumed byte is scanned in order: a newline increments `line` and
resets `column` to 1, any other byte increments `column`). -/
theorem consume_line_column {σ S : Type} (inp : InputImpl σ) (sc : Scanner σ S)
    (amt k : Nat) (hamt : amt ≤ inp.len sc.input)
    (hk : ((inp.buffer sc.input).take amt).count 10 = k) (hk1 : 1 ≤ k) :
    (Scanner.consume inp sc amt).line = sc.line + k ∧
    (Scanner.consume inp sc amt).column =
      bytesAfterLastNewline ((inp.buffer sc.input).take amt) + 1 := by
  have hpos : 0 < ((inp.buffer sc.input).take amt).count 10 := by omega
  constructor
  · show (Scanner.advance (sc.line, sc.column) ((inp.buffer sc.input).take amt)).1
        = sc.line + k
    rw [advance_line]; simp [hk]
  · show (Scanner.advance (sc.line, sc.column) ((inp.buffer sc.input).take amt)).2
        = bytesAfterLastNewline ((inp.buffer sc.input).take amt) + 1
    rw [advance_column_pos _ hpos]

/-- Witness for C4 at the prefix `"a\nb\nc"` (bytes `[97,10,98,10,99]`). -/
theorem consume_line_column_witness :
    (5 ≤ memInput.len ([97, 10, 98, 10, 99] : List Byte) ∧
      ((memInput.buffer [97, 10, 98, 10, 99]).take 5).count 10 = 2 ∧ 1 ≤ 2) ∧
    (Scanner.consume memInput (Scanner.new [97, 10, 98, 10, 99] ()) 5).line = 1 + 2 ∧
    (Scanner.consume memInput (Scanner.new [97, 10, 98, 10, 99] ()) 5).column =
      bytesAfterLastNewline ((memInput.buffer [97, 10, 98, 10, 99]).take 5) + 1 :=
  ⟨⟨by decide, by decide, by decide⟩,
    consume_line_column memInput (Scanner.new [97, 10, 98, 10, 99] ()) 5 2
      (by decide) (by decide) (by decide)⟩

/-! ## Frame condition of `Scanner::reset` -/

/-- Claim C8: `reset(new_source)` replaces the input with the given one and
sets `line` and `column` back to 1, leaving the splitter field (whatever
state it carries) unchanged. -/
theorem reset_preserves_splitter {σ S : Type} (sc : Scanner σ S) (inp : σ) :
    (sc.reset inp).input = inp ∧ (sc.reset inp).line = 1 ∧
    (sc.reset inp).column = 1 ∧ (sc.reset inp).splitter = sc.splitter :=
  ⟨rfl, rfl, rfl, rfl⟩

/-! ## The complete in-memory sources -/

/-- Claim C9: for both complete in-memory sources (`&[u8]` and `Vec<u8>`),
`eof()` is always true, `fill_buf()` is a no-op that succeeds, and
`consume(amt)` with `amt ≤ len()` drops exactly the first `amt` bytes of
the buffer. -/
theorem mem_inputs_spec (l : List Byte) (amt : Nat) (h : amt ≤ memInput.len l) :
    (memInput.eof l = true ∧ memInput.fill_buf l = .ok l ∧
      memInput.buffer (memInput.consume l amt) = (memInput.buffer l).drop amt) ∧
    (vecInput.eof l = true ∧ vecInput.fill_buf l = .ok l ∧
      vecInput.buffer (vecInput.consume l amt) = (vecInput.buffer l).drop amt) :=
  ⟨⟨rfl, rfl, rfl⟩, ⟨rfl, rfl, rfl⟩⟩

/-- Witness for C9 at buffer `[5, 6, 7]`, `amt = 2`. -/
theorem mem_inputs_spec_witness :
    (2 ≤ memInput.len [5, 6, 7]) ∧
    memInput.buffer (memInput.consume [5, 6, 7] 2) = ([5, 6, 7] : List Byte).drop 2 :=
  ⟨by decide, (mem_inputs_spec [5, 6, 7] 2 (by decide)).1.2.2⟩

/-! ## Terminal success: end of input -/

theorem scan_of_eof_request {σ E T : Type} (inp : InputImpl σ) (eops : ErrorOps E)
    (fuel : Nat) (sc : Scanner σ (SplitFn E T))
    (heof : inp.eof sc.input = true)
    (hsplit : sc.splitter (inp.buffer sc.input) true = .ok (none, 0)) :
    Scanner.scan inp eops (fuel + 1) sc = some (.ok none, sc) := by
  simp [Scanner.scan, scanStep, scanFill, heof, hsplit]

/-- Claim C3: when the source reports `at_end` and the splitter answers
request-more-data (`Ok((None, 0))`), `scan` returns the terminal success
`Ok(None)` in a single loop iteration, leaving the scanner unchanged —
it neither refills, nor errors, nor keeps looping. -/
theorem scan_eof_request_more_none {σ E T : Type} (inp : InputImpl σ)
    (eops : ErrorOps E) (fuel : Nat) (sc : Scanner σ (SplitFn E T))
    (heof : inp.eof sc.input = true)
    (hsplit : sc.splitter (inp.buffer sc.input) true = .ok (none, 0)) :
    Scanner.scan inp eops (fuel + 1) sc = some (.ok none, sc) :=
  scan_of_eof_request inp eops fuel sc heof hsplit

/-- Witness for C3: the empty in-memory source under the always-request-more
splitter. -/
theorem scan_eof_request_more_none_witness :
    (memInput.eof [] = true ∧
      (Scanner.new ([] : List Byte) (moreSplit Unit Unit)).splitter
        (memInput.buffer []) true = .ok (none, 0)) ∧
    Scanner.scan memInput eopsUnit 1 (Scanner.new ([] : List Byte) (moreSplit Unit Unit))
      = some (.ok none, Scanner.new ([] : List Byte) (moreSplit Unit Unit)) :=
  ⟨⟨rfl, rfl⟩,
    scan_eof_request_more_none memInput eopsUnit 0
      (Scanner.new ([] : List Byte) (moreSplit Unit Unit)) rfl rfl⟩

/-! ## Zero-length token emission -/

/-- Claim C10: if the splitter is invoked (buffer non-empty or `at_end`) and
returns `Ok((Some(token), 0))`, `scan` returns `Ok(Some(token))` at once,
consuming zero bytes: the scanner state (buffer, line, column) is unchanged.
The hypothesis `hc0` is the (trivially satisfied) requirement that the
source's `consume(0)` not change it. -/
theorem scan_zero_length_emit {σ E T : Type} (inp : InputImpl σ)
    (eops : ErrorOps E) (fuel : Nat) (sc : Scanner σ (SplitFn E T)) (t : T)
    (hguard : (!inp.is_empty sc.input || inp.eof sc.input) = true)
    (hsplit : sc.splitter (inp.buffer sc.input) (inp.eof sc.input)
      = .ok (some t, 0))
    (hc0 : inp.consume sc.input 0 = sc.input) :
    Scanner.scan inp eops (fuel + 1) sc = some (.ok (some t), sc) := by
  simp [Scanner.scan, scanStep, scanFill, hguard, hsplit, Scanner.consume,
    advance_nil, hc0]

/-- Witness for C10: a splitter emitting a zero-length token over `[97]`. -/
theorem scan_zero_length_emit_witness :
    ((!memInput.is_empty [97] || memInput.eof [97]) = true ∧
      memInput.consume [97] 0 = [97]) ∧
    Scanner.scan memInput eopsUnit 1
        (Scanner.new [97] (fun _ _ => .ok (some 3, 0)))
      = some (.ok (some 3), Scanner.new [97] (fun _ _ => .ok (some 3, 0))) :=
  ⟨⟨rfl, rfl⟩,
    scan_zero_length_emit memInput eopsUnit 0
      (Scanner.new [97] (fun _ _ => .ok (some 3, 0))) 3 rfl rfl rfl⟩

/-! ## The splitter is only invoked on a non-empty buffer or at end -/

theorem scanStep_splitter_swap {σ E T : Type} (inp : InputImpl σ)
    (eops : ErrorOps E) (f g : SplitFn E T)
    (hlaw : ∀ s, inp.is_empty s = (inp.buffer s).isEmpty)
    (hfg : ∀ d e, (d ≠ [] ∨ e = true) → f d e = g d e)
    (i : σ) (l c : Nat) :
    scanStep inp eops ⟨i, g, l, c⟩ =
      (scanStep inp eops ⟨i, f, l, c⟩).mapSc
        (fun sc => { sc with splitter := g }) := by
  simp only [scanStep]
  by_cases hguard : (!inp.is_empty i || inp.eof i) = true
  · have hcond : inp.buffer i ≠ [] ∨ inp.eof i = true := by
      rcases Bool.or_eq_true_iff.mp hguard with h1 | h2
      · left
        intro hnil
        have : inp.is_empty i = false := by
          cases hie : inp.is_empty i
          · rfl
          · rw [hie] at h1; simp at h1
        rw [hlaw, hnil] at this
        simp at this
      · right; exact h2
    rw [hguard]
    simp only [if_true]
    rw [← hfg _ _ hcond]
    cases hres : f (inp.buffer i) (inp.eof i) with
    | error e => simp [StepRes.mapSc]
    | ok p =>
      rcases p with ⟨tok, amt⟩
      cases tok with
      | none =>
        cases amt with
        | zero =>
          simp only [scanFill, StepRes.mapSc]
          by_cases he : inp.eof i = true
          · rw [he]; simp [StepRes.mapSc]
          · simp only [Bool.not_eq_true] at he
            rw [he]
            simp only [Bool.false_eq_true, if_false]
            cases hf : inp.fill_buf i with
            | error e => simp [StepRes.mapSc]
            | ok s' => simp [StepRes.mapSc]
        | succ amt' => simp [StepRes.mapSc, Scanner.consume]
      | some t => simp [StepRes.mapSc, Scanner.consume]
  · simp only [Bool.not_eq_true] at hguard
    rw [hguard]
    simp only [Bool.false_eq_true, if_false, scanFill, StepRes.mapSc]
    by_cases he : inp.eof i = true
    · rw [he]; simp [StepRes.mapSc]
    · simp only [Bool.not_eq_true] at he
      rw [he]
      simp only [Bool.false_eq_true, if_false]
      cases hf : inp.fill_buf i with
      | error e => simp [StepRes.mapSc]
      | ok s' => simp [StepRes.mapSc]

theorem scanStep_splitter (inp : InputImpl σ) (eops : ErrorOps E)
    (sc : Scanner σ (SplitFn E T)) :
    splitterOf (scanStep inp eops sc) = some sc.splitter := by
  simp only [scanStep, scanFill, Scanner.consume]
  by_cases hguard : (!inp.is_empty sc.input || inp.eof sc.input) = true
  · rw [if_pos hguard]
    cases hres : sc.splitter (inp.buffer sc.input) (inp.eof sc.input) with
    | error e => simp [splitterOf]
    | ok p =>
      rcases p with ⟨tok, amt⟩
      cases tok with
      | none =>
        cases amt with
        | zero =>
          by_cases he : inp.eof sc.input = true
          · rw [if_pos he]; simp [splitterOf]
          · rw [if_neg he]
            cases hf : inp.fill_buf sc.input with
            | error e => simp [splitterOf]
            | ok s' => simp [splitterOf]
        | succ amt' => simp [splitterOf]
      | some t => simp [splitterOf]
  · rw [if_neg hguard]
    by_cases he : inp.eof sc.input = true
    · rw [if_pos he]; simp [splitterOf]
    · rw [if_neg he]
      cases hf : inp.fill_buf sc.input with
      | error e => simp [splitterOf]
      | ok s' => simp [splitterOf]

theorem scan_splitter_swap {σ E T : Type} (inp : InputImpl σ)
    (eops : ErrorOps E) (f g : SplitFn E T)
    (hlaw : ∀ s, inp.is_empty s = (inp.buffer s).isEmpty)
    (hfg : ∀ d e, (d ≠ [] ∨ e = true) → f d e = g d e) :
    ∀ (fuel : Nat) (i : σ) (l c : Nat),
      Scanner.scan inp eops fuel ⟨i, g, l, c⟩ =
        (Scanner.scan inp eops fuel ⟨i, f, l, c⟩).map
          (fun r => (r.1, { r.2 with splitter := g })) := by
  intro fuel
  induction fuel with
  | zero => intro i l c; rfl
  | succ n ih =>
    intro i l c
    simp only [Scanner.scan]
    rw [scanStep_splitter_swap inp eops f g hlaw hfg i l c]
    have hsp := scanStep_splitter inp eops ⟨i, f, l, c⟩
    cases hstep : scanStep inp eops (⟨i, f, l, c⟩ : Scanner σ (SplitFn E T)) with
    | done r sc' => simp [StepRes.mapSc]
    | next sc' =>
      rw [hstep] at hsp
      simp only [splitterOf, Option.some_inj] at hsp
      obtain ⟨i', s', l', c'⟩ := sc'
      simp only at hsp
      subst hsp
      simp only [StepRes.mapSc]
      exact ih i' l' c'

/-- Claim C6: in every execution of `scan` the splitter is invoked only
when the source's buffer is non-empty or `at_end` is true, never with an
empty buffer while `at_end` is false.  Formalized observationally: for any
honest source (`is_empty` agrees with the buffer view), the whole run of
`scan` is unchanged under replacing the splitter by one that differs only
at (empty data, `at_end = false`) — those argument pairs are never used. -/
theorem splitter_not_called_on_empty {σ E T : Type} (inp : InputImpl σ)
    (eops : ErrorOps E) (f g : SplitFn E T)
    (hlaw : ∀ s, inp.is_empty s = (inp.buffer s).isEmpty)
    (hfg : ∀ d e, (d ≠ [] ∨ e = true) → f d e = g d e)
    (fuel : Nat) (i : σ) (l c : Nat) :
    Scanner.scan inp eops fuel ⟨i, g, l, c⟩ =
      (Scanner.scan inp eops fuel ⟨i, f, l, c⟩).map
        (fun r => (r.1, { r.2 with splitter := g })) :=
  scan_splitter_swap inp eops f g hlaw hfg fuel i l c

/-- Witness for C6: `moreSplit` and `emptyNotEofSplit` differ at
`([], false)` yet produce identical runs over a non-empty memory source. -/
theorem splitter_not_called_on_empty_witness :
    (∀ s, memInput.is_empty s = (memInput.buffer s).isEmpty) ∧
    Scanner.scan memInput eopsUnit 1 ⟨[97], emptyNotEofSplit, 1, 1⟩ =
      (Scanner.scan memInput eopsUnit 1 ⟨[97], moreSplit Unit Nat, 1, 1⟩).map
        (fun r => (r.1, { r.2 with splitter := emptyNotEofSplit })) :=
  ⟨fun _ => rfl,
    splitter_not_called_on_empty memInput eopsUnit (moreSplit Unit Nat)
      emptyNotEofSplit (fun _ => rfl)
      (fun d e h => by
        simp only [emptyNotEofSplit, moreSplit]
        rw [if_neg]
        rintro ⟨rfl, he⟩
        rcases h with h | h
        · exact h rfl
        · rw [h] at he; cases he)
      1 [97] 1 1⟩

/-! ## Idempotent exhaustion -/

theorem scanStep_done_none {σ E T : Type} (inp : InputImpl σ) (eops : ErrorOps E)
    (sc sc' : Scanner σ (SplitFn E T))
    (h : scanStep inp eops sc = .done (.ok none) sc') :
    sc' = sc ∧ inp.eof sc.input = true ∧
      sc.splitter (inp.buffer sc.input) true = .ok (none, 0) := by
  simp only [scanStep, scanFill] at h
  by_cases hguard : (!inp.is_empty sc.input || inp.eof sc.input) = true
  · rw [if_pos hguard] at h
    cases hres : sc.splitter (inp.buffer sc.input) (inp.eof sc.input) with
    | error e => rw [hres] at h; simp at h
    | ok p =>
      rcases p with ⟨tok, amt⟩
      cases tok with
      | none =>
        cases amt with
        | zero =>
          rw [hres] at h
          by_cases he : inp.eof sc.input = true
          · rw [if_pos he] at h
            have hsc : sc' = sc := by
              cases h; rfl
            refine ⟨hsc, he, ?_⟩
            rw [← he]; exact hres
          · rw [if_neg he] at h
            cases hf : inp.fill_buf sc.input with
            | error e => rw [hf] at h; simp at h
            | ok s' => rw [hf] at h; simp at h
        | succ amt' => rw [hres] at h; simp at h
      | some t => rw [hres] at h; simp at h
  · rw [if_neg hguard] at h
    have he : ¬ inp.eof sc.input = true := by
      intro heo
      exact hguard (by rw [heo]; simp)
    rw [if_neg he] at h
    cases hf : inp.fill_buf sc.input with
    | error e => rw [hf] at h; simp at h
    | ok s' => rw [hf] at h; simp at h

theorem scan_done_none {σ E T : Type} (inp : InputImpl σ) (eops : ErrorOps E) :
    ∀ (fuel : Nat) (sc sc' : Scanner σ (SplitFn E T)),
      Scanner.scan inp eops fuel sc = some (.ok none, sc') →
      inp.eof sc'.input = true ∧
        sc'.splitter (inp.buffer sc'.input) true = .ok (none, 0) := by
  intro fuel
  induction fuel with
  | zero => intro sc sc' h; simp [Scanner.scan] at h
  | succ n ih =>
    intro sc sc' h
    simp only [Scanner.scan] at h
    cases hstep : scanStep inp eops sc with
    | done r sc2 =>
      rw [hstep] at h
      simp only [Option.some_inj, Prod.mk.injEq] at h
      obtain ⟨hr, hsc⟩ := h
      subst hr; subst hsc
      obtain ⟨heq, he, hs⟩ := scanStep_done_none inp eops sc sc2 hstep
      rw [heq]
      exact ⟨he, hs⟩
    | next sc2 =>
      rw [hstep] at h
      exact ih sc2 sc' h

/-- Claim C7: once `scan` has returned end-of-input (`Ok(None)`), every
further call (the splitter being a deterministic function) again returns
end-of-input and leaves the scanner — line, column and buffered input —
exactly unchanged, with no panic (the model is total). -/
theorem scan_exhaustion_idempotent {σ E T : Type} (inp : InputImpl σ)
    (eops : ErrorOps E) (fuel fuel' : Nat) (sc sc' : Scanner σ (SplitFn E T))
    (h : Scanner.scan inp eops fuel sc = some (.ok none, sc')) :
    Scanner.scan inp eops (fuel' + 1) sc' = some (.ok none, sc') := by
  obtain ⟨he, hs⟩ := scan_done_none inp eops fuel sc sc' h
  exact scan_of_eof_request inp eops fuel' sc' he hs

/-- Witness for C7: an exhausted empty memory source keeps reporting
end-of-input from the same state. -/
theorem scan_exhaustion_idempotent_witness :
    Scanner.scan memInput eopsUnit 3 (Scanner.new ([] : List Byte) (moreSplit Unit Unit))
      = some (.ok none, Scanner.new ([] : List Byte) (moreSplit Unit Unit)) ∧
    Scanner.scan memInput eopsUnit 2 (Scanner.new ([] : List Byte) (moreSplit Unit Unit))
      = some (.ok none, Scanner.new ([] : List Byte) (moreSplit Unit Unit)) :=
  ⟨rfl, scan_exhaustion_idempotent memInput eopsUnit 3 1
    (Scanner.new ([] : List Byte) (moreSplit Unit Unit))
    (Scanner.new ([] : List Byte) (moreSplit Unit Unit)) rfl⟩

/-! ## Error propagation and position enrichment -/

theorem scanStep_done_error {σ E T : Type} (inp : InputImpl σ) (eops : ErrorOps E)
    (sc sc' : Scanner σ (SplitFn E T)) (e : E)
    (h : scanStep inp eops sc = .done (.error e) sc') :
    sc' = sc ∧
      ((∃ e0, sc.splitter (inp.buffer sc.input) (inp.eof sc.input) = .error e0 ∧
          e = eops.position e0 sc.line sc.column) ∨
       (∃ io, inp.fill_buf sc.input = .error io ∧ e = eops.fromIo io)) := by
  simp only [scanStep, scanFill] at h
  by_cases hguard : (!inp.is_empty sc.input || inp.eof sc.input) = true
  · rw [if_pos hguard] at h
    cases hres : sc.splitter (inp.buffer sc.input) (inp.eof sc.input) with
    | error e0 =>
      rw [hres] at h
      simp only [StepRes.done.injEq, Except.error.injEq] at h
      obtain ⟨he, hsc⟩ := h
      exact ⟨hsc.symm, .inl ⟨e0, rfl, he.symm⟩⟩
    | ok p =>
      rcases p with ⟨tok, amt⟩
      cases tok with
      | none =>
        cases amt with
        | zero =>
          rw [hres] at h
          by_cases heo : inp.eof sc.input = true
          · rw [if_pos heo] at h; simp at h
          · rw [if_neg heo] at h
            cases hf : inp.fill_buf sc.input with
            | error io =>
              rw [hf] at h
              simp only [StepRes.done.injEq, Except.error.injEq] at h
              obtain ⟨he, hsc⟩ := h
              exact ⟨hsc.symm, .inr ⟨io, rfl, he.symm⟩⟩
            | ok s' => rw [hf] at h; simp at h
        | succ amt' => rw [hres] at h; simp at h
      | some t => rw [hres] at h; simp at h
  · rw [if_neg hguard] at h
    have heo : ¬ inp.eof sc.input = true := by
      intro heo
      exact hguard (by rw [heo]; simp)
    rw [if_neg heo] at h
    cases hf : inp.fill_buf sc.input with
    | error io =>
      rw [hf] at h
      simp only [StepRes.done.injEq, Except.error.injEq] at h
      obtain ⟨he, hsc⟩ := h
      exact ⟨hsc.symm, .inr ⟨io, rfl, he.symm⟩⟩
    | ok s' => rw [hf] at h; simp at h

/-- Claim C1 (amended): every error returned by `scan` has one of exactly
two shapes, at the scanner state current when it arose (which `scan`
returns unchanged): a splitter failure, returned as
`position e (line, column)` — enriched with the current position via the
error's `position` operation — or an I/O failure from `fill_buf`, returned
as the plain `From`-conversion `fromIo io` with no position attached. -/
theorem scan_error_origin {σ E T : Type} (inp : InputImpl σ) (eops : ErrorOps E) :
    ∀ (fuel : Nat) (sc sc' : Scanner σ (SplitFn E T)) (e : E),
      Scanner.scan inp eops fuel sc = some (.error e, sc') →
      (∃ e0, sc'.splitter (inp.buffer sc'.input) (inp.eof sc'.input) = .error e0 ∧
          e = eops.position e0 sc'.line sc'.column) ∨
      (∃ io, inp.fill_buf sc'.input = .error io ∧ e = eops.fromIo io) := by
  intro fuel
  induction fuel with
  | zero => intro sc sc' e h; simp [Scanner.scan] at h
  | succ n ih =>
    intro sc sc' e h
    simp only [Scanner.scan] at h
    cases hstep : scanStep inp eops sc with
    | done r sc2 =>
      rw [hstep] at h
      simp only [Option.some_inj, Prod.mk.injEq] at h
      obtain ⟨hr, hsc⟩ := h
      subst hr; subst hsc
      obtain ⟨heq, horigin⟩ := scanStep_done_error inp eops sc sc2 e hstep
      rw [heq]
      exact horigin
    | next sc2 =>
      rw [hstep] at h
      exact ih sc2 sc' e h

/-- Witness for the C1 theorem: a splitter failure over `[97]` comes back
enriched with the current position `(1, 1)`. -/
theorem scan_error_origin_witness :
    Scanner.scan memInput eopsFlag 1
        (Scanner.new [97] (fun _ _ => .error true : SplitFn Bool Unit))
      = some (.error (eopsFlag.position true 1 1),
          Scanner.new [97] (fun _ _ => .error true : SplitFn Bool Unit)) ∧
    ((∃ e0, (fun _ _ => .error true : SplitFn Bool Unit) (memInput.buffer [97])
          (memInput.eof [97]) = .error e0 ∧
        (eopsFlag.position true 1 1) = eopsFlag.position e0 1 1) ∨
     (∃ io, memInput.fill_buf [97] = .error io ∧
        (eopsFlag.position true 1 1) = eopsFlag.fromIo io)) :=
  ⟨rfl,
    scan_error_origin memInput eopsFlag 1
      (Scanner.new [97] (fun _ _ => .error true : SplitFn Bool Unit))
      (Scanner.new [97] (fun _ _ => .error true : SplitFn Bool Unit))
      (eopsFlag.position true 1 1) rfl⟩

/-- Counterexample to C1 as stated: over a source whose refill fails
(`failInput`, e.g. a streaming source on an erroring reader) and the
position-recording errors `eopsFlag` (`fromIo` gives `false`, any
application of `position` gives `true`), `scan` returns the error `false`:
the I/O failure was NOT routed through the `position` operation, which
would necessarily have produced `true`. -/
theorem scan_io_error_not_enriched :
    Scanner.scan failInput eopsFlag 1
        (Scanner.new () (moreSplit Bool Unit))
      = some (.error false, Scanner.new () (moreSplit Bool Unit)) ∧
    eopsFlag.position = fun _ _ _ => true :=
  ⟨rfl, rfl⟩

/-! ## The streaming buffer-growth policy -/

theorem readStep_error_iff (s : InputStream) (e : IoErr) :
    s.readStep = .error e ↔ ∃ rest, s.chunks = .error e :: rest := by
  unfold InputStream.readStep InputStream.readChunk
  cases hch : s.chunks with
  | nil => simp
  | cons ch rest =>
    cases ch with
    | error e0 => simp
    | ok c => simp

theorem fill_buf_error_iff (s : InputStream) (e : IoErr) :
    s.fill_buf = .error e ↔
      (s.free_space = 0 ∧ MAX_CAPACITY ≤ s.capacity * 2 ∧
        e = .unexpectedEof) ∨
      ((s.free_space ≠ 0 ∨ s.capacity * 2 < MAX_CAPACITY) ∧
        ∃ rest, s.chunks = .error e :: rest) := by
  unfold InputStream.fill_buf
  by_cases h0 : s.free_space = 0
  · rw [if_pos h0]
    by_cases h2 : s.capacity * 2 < MAX_CAPACITY
    · rw [if_pos h2, readStep_error_iff]
      constructor
      · rintro ⟨rest, hrest⟩
        exact .inr ⟨.inr h2, rest, hrest⟩
      · rintro (⟨-, hle, -⟩ | ⟨-, rest, hrest⟩)
        · omega
        · exact ⟨rest, hrest⟩
    · rw [if_neg h2]
      constructor
      · intro h
        cases h
        exact .inl ⟨h0, by omega, rfl⟩
      · rintro (⟨-, -, he⟩ | ⟨hor, -⟩)
        · rw [he]
        · rcases hor with h | h
          · exact absurd h0 h
          · exact absurd h h2
  · rw [if_neg h0, readStep_error_iff]
    constructor
    · rintro ⟨rest, hrest⟩
      exact .inr ⟨.inl h0, rest, hrest⟩
    · rintro (⟨hz, -, -⟩ | ⟨-, rest, hrest⟩)
      · exact absurd hz h0
      · exact ⟨rest, hrest⟩

theorem fill_buf_error_allOk (s : InputStream) (hok : AllOkChunks s.chunks)
    (e : IoErr) (h : s.fill_buf = .error e) :
    e = .unexpectedEof ∧ s.free_space = 0 ∧
      MAX_CAPACITY ≤ s.capacity * 2 := by
  rcases (fill_buf_error_iff s e).mp h with ⟨h0, hle, he⟩ | ⟨-, rest, hrest⟩
  · exact ⟨he, h0, hle⟩
  · obtain ⟨c, hc, -⟩ := hok (.error e) (by rw [hrest]; exact List.mem_cons_self _ _)
    cases hc

theorem fill_buf_free_read (s : InputStream) (bytes : List Byte)
    (rest : List (Except IoErr (List Byte)))
    (hfree : s.free_space ≠ 0) (hread : s.readChunk = .ok (bytes, rest)) :
    s.fill_buf = .ok { s with buf := s.buf ++ bytes, chunks := rest,
                              eof := decide (bytes.length = 0) } := by
  unfold InputStream.fill_buf
  rw [if_neg hfree]
  unfold InputStream.readStep
  rw [hread]

theorem scanStep_moreSplit_fill {E T : Type} (eops : ErrorOps E)
    (s : InputStream) (l c : Nat) (heof : s.eof = false) :
    scanStep streamInput eops ⟨s, moreSplit E T, l, c⟩ =
      (match s.fill_buf with
       | .error e => .done (.error (eops.fromIo e)) ⟨s, moreSplit E T, l, c⟩
       | .ok s' => .next ⟨s', moreSplit E T, l, c⟩) := by
  cases hf : s.fill_buf with
  | error e =>
    cases hb : s.buf.isEmpty <;>
      simp [scanStep, scanFill, streamInput, moreSplit, heof, hf, hb]
  | ok s' =>
    cases hb : s.buf.isEmpty <;>
      simp [scanStep, scanFill, streamInput, moreSplit, heof, hf, hb]

theorem chunksBytes_nil : chunksBytes [] = 0 := rfl

theorem chunksBytes_cons (ch : Except IoErr (List Byte))
    (rest : List (Except IoErr (List Byte))) :
    chunksBytes (ch :: rest) = chunkLen ch + chunksBytes rest := by
  simp [chunksBytes]

theorem readStep_spec (s s' : InputStream)
    (hok : AllOkChunks s.chunks)
    (hne : s.chunks ≠ [])
    (hfree : 1 ≤ s.free_space)
    (h : s.readStep = .ok s') :
    s'.buf.length + chunksBytes s'.chunks
        = s.buf.length + chunksBytes s.chunks ∧
    s'.buf.length ≤ s.capacity ∧
    s'.capacity = s.capacity ∧
    s'.eof = false ∧
    AllOkChunks s'.chunks ∧
    chunksBytes s'.chunks < chunksBytes s.chunks := by
  obtain ⟨buf, capacity, chunks, eof⟩ := s
  cases chunks with
  | nil => exact absurd rfl hne
  | cons ch rest =>
    obtain ⟨c, hc, hcne⟩ := hok ch (List.mem_cons_self ch rest)
    subst hc
    have hchlen : 1 ≤ c.length := by
      cases c with
      | nil => exact absurd rfl hcne
      | cons b t => simp
    have hrest_ok : AllOkChunks rest :=
      fun x hx => hok x (List.mem_cons_of_mem _ hx)
    simp only [InputStream.free_space] at hfree
    simp only [InputStream.readStep, InputStream.readChunk,
      InputStream.free_space] at h
    by_cases hlt : min c.length (capacity - buf.length) < c.length
    · rw [if_pos hlt] at h
      rw [Except.ok.injEq] at h
      subst h
      refine ⟨?_, ?_, rfl, ?_, ?_, ?_⟩
      · simp only [List.length_append, List.length_take, chunksBytes_cons,
          chunkLen, List.length_drop]
        omega
      · simp only [List.length_append, List.length_take]
        omega
      · simp only [List.length_take, decide_eq_false_iff_not]
        omega
      · intro x hx
        rcases List.mem_cons.mp hx with hx | hx
        · refine ⟨c.drop (min c.length (capacity - buf.length)), hx, ?_⟩
          intro hd
          have hlen := congrArg List.length hd
          simp only [List.length_drop, List.length_nil] at hlen
          omega
        · exact hrest_ok x hx
      · simp only [chunksBytes_cons, chunkLen, List.length_drop]
        omega
    · rw [if_neg hlt] at h
      rw [Except.ok.injEq] at h
      subst h
      refine ⟨?_, ?_, rfl, ?_, hrest_ok, ?_⟩
      · simp only [List.length_append, List.length_take, chunksBytes_cons,
          chunkLen]
        omega
      · simp only [List.length_append, List.length_take]
        omega
      · simp only [List.length_take, decide_eq_false_iff_not]
        omega
      · simp only [chunksBytes_cons, chunkLen]
        omega

theorem fill_buf_ok_cases (s s' : InputStream) (h : s.fill_buf = .ok s') :
    (s.free_space = 0 ∧ s.capacity * 2 < MAX_CAPACITY ∧
      InputStream.readStep { s with capacity := s.capacity * 2 } = .ok s') ∨
    (s.free_space ≠ 0 ∧ s.readStep = .ok s') := by
  unfold InputStream.fill_buf at h
  by_cases h0 : s.free_space = 0
  · rw [if_pos h0] at h
    by_cases h2 : s.capacity * 2 < MAX_CAPACITY
    · rw [if_pos h2] at h
      exact .inl ⟨h0, h2, h⟩
    · rw [if_neg h2] at h
      cases h
  · rw [if_neg h0] at h
    exact .inr ⟨h0, h⟩

theorem ceiling_run_aux {E T : Type} (eops : ErrorOps E) :
    ∀ (total : Nat) (s : InputStream) (l c : Nat),
      s.buf.length ≤ s.capacity →
      1 ≤ s.capacity →
      s.capacity < MAX_CAPACITY →
      MAX_CAPACITY ≤ s.buf.length + chunksBytes s.chunks →
      s.eof = false →
      AllOkChunks s.chunks →
      chunksBytes s.chunks = total →
      ∃ (fuel : Nat) (sc' : Scanner InputStream (SplitFn E T)),
        Scanner.scan streamInput eops fuel ⟨s, moreSplit E T, l, c⟩
          = some (.error (eops.fromIo .unexpectedEof), sc') := by
  intro total
  induction total using Nat.strong_induction_on with
  | _ total ih =>
    intro s l c hbc hcap1 hcapM hsum heof hok htot
    have hchne : s.chunks ≠ [] := by
      intro hnil
      rw [hnil, chunksBytes_nil] at hsum
      omega
    cases hf : s.fill_buf with
    | error e =>
      have he : e = .unexpectedEof := (fill_buf_error_allOk s hok e hf).1
      subst he
      refine ⟨1, ⟨s, moreSplit E T, l, c⟩, ?_⟩
      simp only [Scanner.scan]
      rw [scanStep_moreSplit_fill eops s l c heof, hf]
    | ok s' =>
      have hinv : s'.buf.length ≤ s'.capacity ∧ 1 ≤ s'.capacity ∧
          s'.capacity < MAX_CAPACITY ∧
          MAX_CAPACITY ≤ s'.buf.length + chunksBytes s'.chunks ∧
          s'.eof = false ∧ AllOkChunks s'.chunks ∧
          chunksBytes s'.chunks < total := by
        rcases fill_buf_ok_cases s s' hf with ⟨h0, h2, hstep⟩ | ⟨h0, hstep⟩
        · have hbe : s.buf.length = s.capacity := by
            simp only [InputStream.free_space] at h0
            omega
          have hfree1 : 1 ≤ InputStream.free_space
              { s with capacity := s.capacity * 2 } := by
            simp only [InputStream.free_space]
            omega
          obtain ⟨hc1, hc2, hc3, hc4, hc5, hc6⟩ :=
            readStep_spec { s with capacity := s.capacity * 2 } s'
              hok hchne hfree1 hstep
          simp only at hc1 hc2 hc3 hc4 hc5 hc6
          refine ⟨by omega, by omega, by omega, by omega, hc4, hc5, by omega⟩
        · have hfree1 : 1 ≤ s.free_space := Nat.one_le_iff_ne_zero.mpr h0
          obtain ⟨hc1, hc2, hc3, hc4, hc5, hc6⟩ :=
            readStep_spec s s' hok hchne hfree1 hstep
          refine ⟨by omega, by omega, by omega, by omega, hc4, hc5, by omega⟩
      obtain ⟨h1, h2, h3, h4, h5, h6, h7⟩ := hinv
      obtain ⟨fuel, sc', hscan⟩ :=
        ih (chunksBytes s'.chunks) h7 s' l c h1 h2 h3 h4 h5 h6 rfl
      refine ⟨fuel + 1, sc', ?_⟩
      simp only [Scanner.scan]
      rw [scanStep_moreSplit_fill eops s l c heof, hf]
      exact hscan

/-- Claim C5 (amended): for the streaming source, (1) `fill_buf` fails
exactly when either the buffer has no free space and the doubled capacity
would reach or exceed the 1 GiB ceiling `MAX_CAPACITY` (the out-of-space
error), or — otherwise — the single read it performs fails, in which case
the reader's own error is propagated unchanged (the `?` at the
`read_from` call); (2) whenever there is free space and the read
delivers, `fill_buf` succeeds by performing exactly that one read,
appending the delivered bytes to the buffer and setting `eof` iff the
read returned zero bytes; (3) a streaming input that is one undelimited
error-free run (a splitter always requesting more data) at least as long
as the ceiling makes `scan` return the resource-exhaustion error rather
than hang or truncate. -/
theorem fill_buf_growth_policy :
    (∀ (s : InputStream) (e : IoErr),
        s.fill_buf = .error e ↔
          (s.free_space = 0 ∧ MAX_CAPACITY ≤ s.capacity * 2 ∧
            e = .unexpectedEof) ∨
          ((s.free_space ≠ 0 ∨ s.capacity * 2 < MAX_CAPACITY) ∧
            ∃ rest, s.chunks = .error e :: rest)) ∧
    (∀ (s : InputStream) (bytes : List Byte)
        (rest : List (Except IoErr (List Byte))),
        s.free_space ≠ 0 → s.readChunk = .ok (bytes, rest) →
        s.fill_buf = .ok { s with buf := s.buf ++ bytes, chunks := rest,
                                  eof := decide (bytes.length = 0) }) ∧
    (∀ (E T : Type) (eops : ErrorOps E)
        (chunks : List (Except IoErr (List Byte))),
        AllOkChunks chunks →
        MAX_CAPACITY ≤ chunksBytes chunks →
        ∃ (fuel : Nat) (sc' : Scanner InputStream (SplitFn E T)),
          Scanner.scan streamInput eops fuel
              (Scanner.new (InputStream.new chunks) (moreSplit E T))
            = some (.error (eops.fromIo .unexpectedEof), sc')) := by
  refine ⟨fill_buf_error_iff, fill_buf_free_read, ?_⟩
  intro E T eops chunks hok hlen
  exact ceiling_run_aux eops (chunksBytes chunks) (InputStream.new chunks) 1 1
    (by simp [InputStream.new]) (by simp [InputStream.new])
    (by simp [InputStream.new, MAX_CAPACITY])
    (by simpa [InputStream.new] using hlen)
    (by simp [InputStream.new]) hok rfl

/-- Witness for C5 at a concrete stream with free space 4 whose read
delivers `[1, 2]`: `fill_buf` performs that one read. -/
theorem fill_buf_growth_policy_witness :
    (InputStream.free_space ⟨[], 4, [.ok [1, 2]], false⟩ ≠ 0 ∧
      InputStream.readChunk ⟨[], 4, [.ok [1, 2]], false⟩ = .ok ([1, 2], [])) ∧
    InputStream.fill_buf ⟨[], 4, [.ok [1, 2]], false⟩
      = .ok ⟨[1, 2], 4, [], false⟩ :=
  ⟨⟨by decide, rfl⟩,
    fill_buf_growth_policy.2.1 ⟨[], 4, [.ok [1, 2]], false⟩ [1, 2] []
      (by decide) rfl⟩

theorem free_space_mk (L : List Byte) (c : Nat)
    (ch : List (Except IoErr (List Byte))) (e : Bool) :
    InputStream.free_space ⟨L, c, ch, e⟩ = c - L.length := rfl

theorem capacity_mk (L : List Byte) (c : Nat)
    (ch : List (Except IoErr (List Byte))) (e : Bool) :
    (InputStream.mk L c ch e).capacity = c := rfl

/-- Counterexample to C5 as stated: a full buffer at capacity `2^29`.
Doubling it would make the capacity exactly `2^30 = MAX_CAPACITY`, which
does not *exceed* the 1 GiB ceiling — yet `fill_buf` fails (the code tests
`capacity * 2 < MAX_CAPACITY`, rejecting equality as well). -/
theorem fill_buf_ceiling_boundary :
    InputStream.fill_buf ⟨List.replicate (2 ^ 29) 0, 2 ^ 29, [.ok [1]], false⟩
      = .error .unexpectedEof ∧
    ¬ (MAX_CAPACITY < 2 ^ 29 * 2) := by
  have hlen : (List.replicate (2 ^ 29) (0 : Byte)).length = 2 ^ 29 :=
    List.length_replicate _ _
  refine ⟨(fill_buf_error_iff _ _).mpr (.inl ⟨?_, ?_, rfl⟩), ?_⟩
  · rw [free_space_mk, hlen]
    omega
  · rw [capacity_mk]
    norm_num [MAX_CAPACITY]
  · norm_num [MAX_CAPACITY]

/-! ## Streaming vs. in-memory equivalence -/

theorem scanStep_mem {E T : Type} (eops : ErrorOps E)
    (sc : Scanner (List Byte) (SplitFn E T)) :
    scanStep memInput eops sc =
      match sc.splitter sc.input true with
      | .error e => .done (.error (eops.position e sc.line sc.column)) sc
      | .ok (none, 0) => .done (.ok none) sc
      | .ok (none, amt) => .next (Scanner.consume memInput sc amt)
      | .ok (tok, amt) => .done (.ok tok) (Scanner.consume memInput sc amt) := by
  cases hres : sc.splitter sc.input true with
  | error e => simp [scanStep, scanFill, memInput, hres]
  | ok p =>
    rcases p with ⟨tok, amt⟩
    cases tok with
    | none =>
      cases amt with
      | zero => simp [scanStep, scanFill, memInput, hres]
      | succ k => simp [scanStep, scanFill, memInput, hres]
    | some t => simp [scanStep, scanFill, memInput, hres]

theorem scanStep_stream {E T : Type} (eops : ErrorOps E)
    (sc : Scanner InputStream (SplitFn E T)) :
    scanStep streamInput eops sc =
      if sc.input.buf = [] ∧ sc.input.eof = false then
        (match sc.input.fill_buf with
         | .error e => .done (.error (eops.fromIo e)) sc
         | .ok s' => .next { sc with input := s' })
      else
        match sc.splitter sc.input.buf sc.input.eof with
        | .error e => .done (.error (eops.position e sc.line sc.column)) sc
        | .ok (none, 0) =>
            if sc.input.eof = true then .done (.ok none) sc
            else (match sc.input.fill_buf with
                  | .error e => .done (.error (eops.fromIo e)) sc
                  | .ok s' => .next { sc with input := s' })
        | .ok (none, amt) => .next (Scanner.consume streamInput sc amt)
        | .ok (tok, amt) => .done (.ok tok) (Scanner.consume streamInput sc amt) := by
  by_cases hcase : sc.input.buf = [] ∧ sc.input.eof = false
  · rw [if_pos hcase]
    obtain ⟨hb, he⟩ := hcase
    cases hf : sc.input.fill_buf with
    | error e => simp [scanStep, scanFill, streamInput, hb, he, hf]
    | ok s' => simp [scanStep, scanFill, streamInput, hb, he, hf]
  · rw [if_neg hcase]
    cases hb : sc.input.buf with
    | nil =>
      cases he : sc.input.eof with
      | false => exact absurd ⟨hb, he⟩ hcase
      | true =>
        cases hres : sc.splitter [] true with
        | error e => simp [scanStep, scanFill, streamInput, hb, he, hres]
        | ok p =>
          rcases p with ⟨tok, amt⟩
          cases tok with
          | none =>
            cases amt with
            | zero => simp [scanStep, scanFill, streamInput, hb, he, hres]
            | succ k => simp [scanStep, scanFill, streamInput, hb, he, hres]
          | some t => simp [scanStep, scanFill, streamInput, hb, he, hres]
    | cons x xs =>
      cases he : sc.input.eof with
      | true =>
        cases hres : sc.splitter (x :: xs) true with
        | error e => simp [scanStep, scanFill, streamInput, hb, he, hres]
        | ok p =>
          rcases p with ⟨tok, amt⟩
          cases tok with
          | none =>
            cases amt with
            | zero => simp [scanStep, scanFill, streamInput, hb, he, hres]
            | succ k => simp [scanStep, scanFill, streamInput, hb, he, hres]
          | some t => simp [scanStep, scanFill, streamInput, hb, he, hres]
      | false =>
        cases hres : sc.splitter (x :: xs) false with
        | error e => simp [scanStep, scanFill, streamInput, hb, he, hres]
        | ok p =>
          rcases p with ⟨tok, amt⟩
          cases tok with
          | none =>
            cases amt with
            | zero =>
              cases hf : sc.input.fill_buf with
              | error e =>
                simp [scanStep, scanFill, streamInput, hb, he, hres, hf]
              | ok s' =>
                simp [scanStep, scanFill, streamInput, hb, he, hres, hf]
            | succ k => simp [scanStep, scanFill, streamInput, hb, he, hres]
          | some t => simp [scanStep, scanFill, streamInput, hb, he, hres]

theorem okJoin_nil : okJoin [] = [] := rfl

theorem okJoin_cons_ok (c : List Byte) (rest : List (Except IoErr (List Byte))) :
    okJoin (.ok c :: rest) = c ++ okJoin rest := rfl

theorem okJoin_map_ok (cs : List (List Byte)) :
    okJoin (cs.map Except.ok) = cs.flatten := by
  induction cs with
  | nil => rfl
  | cons c t ih => simp [okJoin, ih]

theorem readStep_join (s s' : InputStream) (h : s.readStep = .ok s') :
    s'.buf ++ okJoin s'.chunks = s.buf ++ okJoin s.chunks := by
  obtain ⟨buf, capacity, chunks, eof⟩ := s
  cases chunks with
  | nil =>
    simp only [InputStream.readStep, InputStream.readChunk] at h
    rw [Except.ok.injEq] at h
    subst h
    simp [okJoin]
  | cons ch rest =>
    cases ch with
    | error e => simp [InputStream.readStep, InputStream.readChunk] at h
    | ok c =>
      simp only [InputStream.readStep, InputStream.readChunk] at h
      by_cases hlt : min c.length
          (InputStream.free_space ⟨buf, capacity, .ok c :: rest, eof⟩)
          < c.length
      · rw [if_pos hlt] at h
        rw [Except.ok.injEq] at h
        subst h
        have htad := List.take_append_drop
          (min c.length
            (InputStream.free_space ⟨buf, capacity, .ok c :: rest, eof⟩)) c
        simp only [okJoin]
        simp only [← List.append_assoc]
        rw [List.append_assoc buf, htad]
      · rw [if_neg hlt] at h
        have hmin : min c.length
            (InputStream.free_space ⟨buf, capacity, .ok c :: rest, eof⟩)
            = c.length := by omega
        rw [hmin, List.take_length] at h
        rw [Except.ok.injEq] at h
        subst h
        simp only [okJoin]
        simp only [← List.append_assoc]

theorem readStep_inv (s s' : InputStream)
    (hok : AllOkChunks s.chunks)
    (hfree : 1 ≤ s.free_space)
    (h : s.readStep = .ok s') :
    (s'.eof = true → s'.chunks = []) ∧
    AllOkChunks s'.chunks ∧
    s'.buf.length ≤ s.capacity ∧
    s'.capacity = s.capacity := by
  cases hch : s.chunks with
  | nil =>
    simp only [InputStream.free_space] at hfree
    obtain ⟨buf, capacity, chunks, eof⟩ := s
    simp only at hch
    subst hch
    simp only [InputStream.readStep, InputStream.readChunk] at h
    rw [Except.ok.injEq] at h
    subst h
    refine ⟨fun _ => rfl, by simp [AllOkChunks], ?_, rfl⟩
    show (buf ++ []).length ≤ capacity
    simp only [List.append_nil]
    simp only at hfree
    omega
  | cons ch rest =>
    obtain ⟨-, hb, hcap, heof, hmem, -⟩ :=
      readStep_spec s s' hok (by rw [hch]; simp) hfree h
    refine ⟨?_, hmem, hb, hcap⟩
    intro hh
    rw [heof] at hh
    cases hh

theorem fill_preserves (s : InputStream) (B : List Byte)
    (hI1 : s.buf ++ okJoin s.chunks = B)
    (hI3 : AllOkChunks s.chunks)
    (hI4 : s.buf.length ≤ s.capacity)
    (hI5 : 1 ≤ s.capacity)
    (hB : 2 * B.length < MAX_CAPACITY) :
    ∃ s', s.fill_buf = .ok s' ∧
      s'.buf ++ okJoin s'.chunks = B ∧
      (s'.eof = true → s'.chunks = []) ∧
      AllOkChunks s'.chunks ∧
      s'.buf.length ≤ s'.capacity ∧
      1 ≤ s'.capacity := by
  have hlenB : s.buf.length ≤ B.length := by
    have := congrArg List.length hI1
    simp only [List.length_append] at this
    omega
  cases hf : s.fill_buf with
  | error e =>
    exfalso
    obtain ⟨-, h0, hcap⟩ := fill_buf_error_allOk s hI3 e hf
    simp only [InputStream.free_space] at h0
    simp only [MAX_CAPACITY] at hcap hB
    omega
  | ok s' =>
    refine ⟨s', rfl, ?_⟩
    rcases fill_buf_ok_cases s s' hf with ⟨h0, h2, hstep⟩ | ⟨h0, hstep⟩
    · have hbe : s.buf.length = s.capacity := by
        simp only [InputStream.free_space] at h0
        omega
      have hfree1 : 1 ≤ InputStream.free_space
          { s with capacity := s.capacity * 2 } := by
        simp only [InputStream.free_space]
        omega
      obtain ⟨hc1, hc2, hc3, hc4⟩ :=
        readStep_inv { s with capacity := s.capacity * 2 } s' hI3 hfree1 hstep
      refine ⟨?_, hc1, hc2, ?_, ?_⟩
      · rw [readStep_join { s with capacity := s.capacity * 2 } s' hstep]
        exact hI1
      · rw [hc4]
        exact hc3
      · rw [hc4]
        show 1 ≤ s.capacity * 2
        omega
    · have hfree1 : 1 ≤ s.free_space := Nat.one_le_iff_ne_zero.mpr h0
      obtain ⟨hc1, hc2, hc3, hc4⟩ := readStep_inv s s' hI3 hfree1 hstep
      refine ⟨?_, hc1, hc2, ?_, ?_⟩
      · rw [readStep_join s s' hstep]
        exact hI1
      · rw [hc4]
        exact hc3
      · rw [hc4]
        exact hI5

theorem consume_sim {E T : Type} (f : SplitFn E T)
    (scM : Scanner (List Byte) (SplitFn E T))
    (scS : Scanner InputStream (SplitFn E T)) (amt : Nat)
    (hinv : SimInv f scM scS)
    (hamt : amt ≤ scS.input.buf.length) :
    SimInv f (Scanner.consume memInput scM amt)
      (Scanner.consume streamInput scS amt) := by
  obtain ⟨hI1, hI2, hI3, hI4, hI5, hI6, hL, hC, hFM, hFS⟩ := hinv
  have htake : scM.input.take amt = scS.input.buf.take amt := by
    rw [← hI1, List.take_append_of_le_length hamt]
  have hdrop : scM.input.drop amt
      = scS.input.buf.drop amt ++ okJoin scS.input.chunks := by
    rw [← hI1, List.drop_append_of_le_length hamt]
  simp only [SimInv, Scanner.consume, memInput, streamInput]
  refine ⟨hdrop.symm, hI2, hI3, ?_, hI5, ?_, ?_, ?_, hFM, hFS⟩
  · simp only [List.length_drop]
    omega
  · simp only [List.length_drop]
    omega
  · rw [htake, hL, hC]
  · rw [htake, hL, hC]

theorem sim_scan {E T : Type} (eops : ErrorOps E) (f : SplitFn E T)
    (hst : SplitStable f) :
    ∀ (fuelS : Nat) (fuelM : Nat)
      (scM : Scanner (List Byte) (SplitFn E T))
      (scS : Scanner InputStream (SplitFn E T))
      (rM : Except E (Option T) × Scanner (List Byte) (SplitFn E T))
      (rS : Except E (Option T) × Scanner InputStream (SplitFn E T)),
      SimInv f scM scS →
      Scanner.scan memInput eops fuelM scM = some rM →
      Scanner.scan streamInput eops fuelS scS = some rS →
      rM.1 = rS.1 ∧ SimInv f rM.2 rS.2 := by
  obtain ⟨hdec, herr, hwf⟩ := hst
  intro fuelS
  induction fuelS with
  | zero => intro fuelM scM scS rM rS hinv hM hS; simp [Scanner.scan] at hS
  | succ n ih =>
    intro fuelM scM scS rM rS hinv hM hS
    have hinv' := hinv
    obtain ⟨hI1, hI2, hI3, hI4, hI5, hI6, hL, hC, hFM, hFS⟩ := hinv
    simp only [Scanner.scan] at hS
    rw [scanStep_stream eops scS] at hS
    by_cases hcase : scS.input.buf = [] ∧ scS.input.eof = false
    · rw [if_pos hcase] at hS
      obtain ⟨s', hfok, hJ1, hJ2, hJ3, hJ4, hJ5⟩ :=
        fill_preserves scS.input scM.input hI1 hI3 hI4 hI5 hI6
      simp only [hfok] at hS
      exact ih fuelM scM { scS with input := s' } rM rS
        ⟨hJ1, hJ2, hJ3, hJ4, hJ5, hI6, hL, hC, hFM, hFS⟩ hM hS
    · rw [if_neg hcase] at hS
      rw [hFS] at hS
      cases hres : f scS.input.buf scS.input.eof with
      | error err =>
        simp only [hres] at hS
        have hmem : f scM.input true = .error err := by
          rw [← hI1]
          exact herr _ _ _ hres _ _
        cases fuelM with
        | zero => simp [Scanner.scan] at hM
        | succ m =>
          simp only [Scanner.scan] at hM
          rw [scanStep_mem eops scM, hFM] at hM
          simp only [hmem] at hM
          rw [Option.some_inj] at hM hS
          subst hM; subst hS
          refine ⟨?_, hinv'⟩
          simp [hL, hC]
      | ok p =>
        rcases p with ⟨tok, amt⟩
        cases tok with
        | none =>
          cases amt with
          | zero =>
            simp only [hres] at hS
            by_cases he : scS.input.eof = true
            · rw [if_pos he] at hS
              have hchn : scS.input.chunks = [] := hI2 he
              have hbufM : scS.input.buf = scM.input := by
                rw [← hI1, hchn, okJoin_nil]
                simp
              have hmem : f scM.input true = .ok (none, 0) := by
                rw [he] at hres
                rw [hbufM] at hres
                exact hres
              cases fuelM with
              | zero => simp [Scanner.scan] at hM
              | succ m =>
                simp only [Scanner.scan] at hM
                rw [scanStep_mem eops scM, hFM] at hM
                simp only [hmem] at hM
                rw [Option.some_inj] at hM hS
                subst hM; subst hS
                exact ⟨rfl, hinv'⟩
            · rw [if_neg he] at hS
              obtain ⟨s', hfok, hJ1, hJ2, hJ3, hJ4, hJ5⟩ :=
                fill_preserves scS.input scM.input hI1 hI3 hI4 hI5 hI6
              simp only [hfok] at hS
              exact ih fuelM scM ⟨s', f, scS.line, scS.column⟩ rM rS
                ⟨hJ1, hJ2, hJ3, hJ4, hJ5, hI6, hL, hC, hFM, rfl⟩ hM hS
          | succ k =>
            simp only [hres] at hS
            have hamt : k + 1 ≤ scS.input.buf.length := hwf _ _ _ _ hres
            have hmem : f scM.input true = .ok (none, k + 1) := by
              rw [← hI1]
              exact hdec _ _ _ _ hres (.inr (by omega)) _ _
            cases fuelM with
            | zero => simp [Scanner.scan] at hM
            | succ m =>
              simp only [Scanner.scan] at hM
              rw [scanStep_mem eops scM, hFM] at hM
              simp only [hmem] at hM
              exact ih m (Scanner.consume memInput scM (k + 1))
                (Scanner.consume streamInput scS (k + 1)) rM rS
                (consume_sim f scM scS (k + 1) hinv' hamt) hM hS
        | some t =>
          simp only [hres] at hS
          have hamt : amt ≤ scS.input.buf.length := hwf _ _ _ _ hres
          have hmem : f scM.input true = .ok (some t, amt) := by
            rw [← hI1]
            exact hdec _ _ _ _ hres (.inl (by simp)) _ _
          cases fuelM with
          | zero => simp [Scanner.scan] at hM
          | succ m =>
            simp only [Scanner.scan] at hM
            rw [scanStep_mem eops scM, hFM] at hM
            simp only [hmem] at hM
            rw [Option.some_inj] at hM hS
            subst hM; subst hS
            exact ⟨rfl, consume_sim f scM scS amt hinv' hamt⟩

theorem sim_run {E T : Type} (eops : ErrorOps E) (f : SplitFn E T)
    (hst : SplitStable f) :
    ∀ (callsM callsS loopFuelM loopFuelS : Nat)
      (scM : Scanner (List Byte) (SplitFn E T))
      (scS : Scanner InputStream (SplitFn E T))
      (rM : List T × Except E Unit × Scanner (List Byte) (SplitFn E T))
      (rS : List T × Except E Unit × Scanner InputStream (SplitFn E T)),
      SimInv f scM scS →
      runScanner memInput eops loopFuelM callsM scM = some rM →
      runScanner streamInput eops loopFuelS callsS scS = some rS →
      rM.1 = rS.1 ∧ rM.2.1 = rS.2.1 ∧
      rM.2.2.line = rS.2.2.line ∧ rM.2.2.column = rS.2.2.column := by
  intro callsM
  induction callsM with
  | zero =>
    intro callsS lM lS scM scS rM rS hinv hM hS
    simp [runScanner] at hM
  | succ cm ih =>
    intro callsS lM lS scM scS rM rS hinv hM hS
    cases callsS with
    | zero => simp [runScanner] at hS
    | succ cs =>
      simp only [runScanner] at hM hS
      cases hsm : Scanner.scan memInput eops lM scM with
      | none => simp only [hsm] at hM; cases hM
      | some pM =>
        cases hss : Scanner.scan streamInput eops lS scS with
        | none => simp only [hss] at hS; cases hS
        | some pS =>
          rcases pM with ⟨outM, scM2⟩
          rcases pS with ⟨outS, scS2⟩
          obtain ⟨hout, hinv2⟩ :=
            sim_scan eops f hst lS lM scM scS (outM, scM2) (outS, scS2) hinv hsm hss
          simp only at hout
          subst hout
          cases outM with
          | error e =>
            simp only [hsm] at hM
            simp only [hss] at hS
            rw [Option.some_inj] at hM hS
            subst hM; subst hS
            obtain ⟨-, -, -, -, -, -, hL2, hC2, -, -⟩ := hinv2
            exact ⟨rfl, rfl, hL2, hC2⟩
          | ok o =>
            cases o with
            | none =>
              simp only [hsm] at hM
              simp only [hss] at hS
              rw [Option.some_inj] at hM hS
              subst hM; subst hS
              obtain ⟨-, -, -, -, -, -, hL2, hC2, -, -⟩ := hinv2
              exact ⟨rfl, rfl, hL2, hC2⟩
            | some t =>
              simp only [hsm] at hM
              simp only [hss] at hS
              obtain ⟨rrM, hrunM, hmapM⟩ := Option.map_eq_some'.mp hM
              obtain ⟨rrS, hrunS, hmapS⟩ := Option.map_eq_some'.mp hS
              obtain ⟨h1, h2, h3, h4⟩ :=
                ih cs lM lS scM2 scS2 rrM rrS hinv2 hrunM hrunS
              subst hmapM; subst hmapS
              exact ⟨by rw [h1], h2, h3, h4⟩

/-- Claim C2 (amended): running `scan` to exhaustion over the in-memory
source and over a streaming source whose reader delivers the same bytes in
arbitrary nonempty chunks (error-free reads, injected as `.ok` outcomes of
the fallible reader) produces the same ordered token sequence, the same
terminal outcome, and the same final `(line, column)` — for every byte
sequence short enough that the streaming buffer ceiling cannot be reached
(twice its length below `MAX_CAPACITY`) and every pure Splitter that is
stable (`SplitStable`): its skip/emit/error decisions survive buffer
extension, ignore the `at_end` flag, and consume no more than the visible
bytes.  Runs are fuel-indexed; the conclusion compares any two completed
runs. -/
theorem stream_mem_equiv {E T : Type} (eops : ErrorOps E) (f : SplitFn E T)
    (B : List Byte) (chunks : List (List Byte))
    (hst : SplitStable f)
    (hjoin : chunks.flatten = B)
    (hch : ∀ ch ∈ chunks, ch ≠ [])
    (hlen : 2 * B.length < MAX_CAPACITY) :
    ∀ (callsM callsS loopFuelM loopFuelS : Nat)
      (rM : List T × Except E Unit × Scanner (List Byte) (SplitFn E T))
      (rS : List T × Except E Unit × Scanner InputStream (SplitFn E T)),
      runScanner memInput eops loopFuelM callsM (Scanner.new B f) = some rM →
      runScanner streamInput eops loopFuelS callsS
          (Scanner.new (InputStream.new (chunks.map Except.ok)) f) = some rS →
      rM.1 = rS.1 ∧ rM.2.1 = rS.2.1 ∧
      rM.2.2.line = rS.2.2.line ∧ rM.2.2.column = rS.2.2.column := by
  intro callsM callsS lM lS rM rS hM hS
  refine sim_run eops f hst callsM callsS lM lS _ _ rM rS ?_ hM hS
  refine ⟨?_, ?_, ?_, ?_, ?_, hlen, rfl, rfl, rfl, rfl⟩
  · simpa [InputStream.new, Scanner.new, okJoin_map_ok] using hjoin
  · intro h
    simp [InputStream.new, Scanner.new] at h
  · intro ch hmem
    obtain ⟨c, hcmem, hc⟩ := List.mem_map.mp hmem
    exact ⟨c, hc.symm, hch c hcmem⟩
  · simp [InputStream.new, Scanner.new]
  · simp [InputStream.new, Scanner.new]

/-- Counterexample to C2 as stated ("for every Splitter"): `eofTagSplit`
distinguishes the `at_end` flag, so over the byte `[97]` the in-memory run
(where `at_end` is true from the start) emits the token `true` while the
streaming run (where the byte arrives before the end is known) emits
`false`: the ordered token sequences differ. -/
theorem stream_mem_differ :
    (runScanner memInput eopsUnit 2 2 (Scanner.new [97] eofTagSplit)).map
        (fun r => (r.1, r.2.1)) = some ([true], .ok ()) ∧
    (runScanner streamInput eopsUnit 3 3
        (Scanner.new (InputStream.new [.ok [97]]) eofTagSplit)).map
        (fun r => (r.1, r.2.1)) = some ([false], .ok ()) :=
  ⟨rfl, rfl⟩

theorem headTokenSplit_stable : SplitStable headTokenSplit := by
  refine ⟨?_, ?_, ?_⟩
  · intro d e r amt h hside t e'
    cases d with
    | nil =>
      simp only [headTokenSplit] at h
      rw [Except.ok.injEq, Prod.mk.injEq] at h
      obtain ⟨h1, h2⟩ := h
      subst h1; subst h2
      rcases hside with h | h
      · exact absurd rfl h
      · exact absurd rfl h
    | cons b t' =>
      simp only [headTokenSplit] at h
      rw [Except.ok.injEq, Prod.mk.injEq] at h
      obtain ⟨h1, h2⟩ := h
      subst h1; subst h2
      simp [headTokenSplit]
  · intro d e err h
    cases d <;> simp [headTokenSplit] at h
  · intro d e r amt h
    cases d with
    | nil =>
      simp only [headTokenSplit] at h
      rw [Except.ok.injEq, Prod.mk.injEq] at h
      obtain ⟨-, h2⟩ := h
      omega
    | cons b t' =>
      simp only [headTokenSplit] at h
      rw [Except.ok.injEq, Prod.mk.injEq] at h
      obtain ⟨-, h2⟩ := h
      subst h2
      simp

/-- Witness for C2: the byte-per-token splitter over `[97, 98]`, streamed
as two one-byte chunks, agrees with the in-memory run. -/
theorem stream_mem_equiv_witness :
    runScanner memInput eopsUnit 1 3
        (Scanner.new ([97, 98] : List Byte) headTokenSplit)
      = some ([97, 98], .ok (), ⟨[], headTokenSplit, 1, 3⟩) ∧
    runScanner streamInput eopsUnit 2 3
        (Scanner.new (InputStream.new (([[97], [98]] : List (List Byte)).map
          Except.ok)) headTokenSplit)
      = some ([97, 98], .ok (), ⟨⟨[], 4096, [], true⟩, headTokenSplit, 1, 3⟩) ∧
    (([97, 98] : List Nat) = [97, 98] ∧
      (Except.ok () : Except Unit Unit) = .ok () ∧
      (1 : Nat) = 1 ∧ (3 : Nat) = 3) :=
  ⟨rfl, rfl,
    stream_mem_equiv eopsUnit headTokenSplit [97, 98] [[97], [98]]
      headTokenSplit_stable rfl (by decide) (by decide)
      3 3 1 2
      ([97, 98], .ok (), ⟨[], headTokenSplit, 1, 3⟩)
      ([97, 98], .ok (), ⟨⟨[], 4096, [], true⟩, headTokenSplit, 1, 3⟩)
      rfl rfl⟩
